import Mathlib

/-!
# Verification of the swampymud command-grammar engine

A shallow embedding of `swampymud/util/parser.py`: the quote-aware
tokenizer `split_args`, the grammar-string parser `_parse_grammar`, the
Thompson-style NFA builders, and the NFA executor (`matches`, `annotate`,
`trans_expected`), together with theorems about them.

Conventions of the embedding:
* Python strings are Lean `String`s; character scans work on `String.data`.
* Python exceptions are modelled with `Except`: each distinct `ValueError`
  message of the grammar parser becomes a constructor of `GErr`.
* The executor's epsilon crawl is a recursive generator in Python; it can
  diverge on epsilon cycles (Python would hit its recursion limit), so the
  embedded executor takes a `fuel : Nat` argument and returns `none` when
  the fuel runs out.  `some r` means the Python code terminates with `r`.
* `str.islower` / `str.isupper` are modelled for ASCII text (cased
  characters are the ASCII letters), which covers every grammar string the
  repository uses.
-/

set_option maxRecDepth 10000

namespace Swampymud

/-! ## Tokenizer: `split_args` -/

/-- The whitespace characters the tokenizer splits on (`" \t\n\r"`). -/
def isSpaceChar (c : Char) : Bool := c = ' ' || c = '\t' || c = '\n' || c = '\r'

/-- The quote characters (`"\"'"`). -/
def isQuoteChar (c : Char) : Bool := c = '"' || c = '\x27'

/-- Python `tokens[-1].append(char)`: append a character to the last
token-in-progress.  (The `[]` case is unreachable: the scanner only appends
when a token has already been opened.) -/
def appendLast : List (List Char) → Char → List (List Char)
  | [], c => [[c]]
  | [t], c => [t ++ [c]]
  | t :: ts, c => t :: appendLast ts c

/-- The character scan of `split_args`.  State: `in_quote` (which quote
character opened the current quoted token, if any), `in_token` (scanner is
inside an unquoted token), and the tokens accumulated so far. -/
def splitArgsLoop : Option Char → Bool → List (List Char) → List Char → List (List Char)
  | _, _, tokens, [] => tokens
  | some q, inTok, tokens, c :: rest =>
      if c = q then
        -- closing the quoted token
        splitArgsLoop none inTok tokens rest
      else
        -- still inside a quoted token
        splitArgsLoop (some q) inTok (appendLast tokens c) rest
  | none, inTok, tokens, c :: rest =>
      if isQuoteChar c then
        if inTok then
          -- in an unquoted token: the quote is a literal character
          splitArgsLoop none inTok (appendLast tokens c) rest
        else
          -- open a new quoted token
          splitArgsLoop (some c) inTok (tokens ++ [[]]) rest
      else if isSpaceChar c then
        splitArgsLoop none false tokens rest
      else
        if inTok then
          splitArgsLoop none true (appendLast tokens c) rest
        else
          splitArgsLoop none true (tokens ++ [[c]]) rest

/-- Embeds `split_args(string)`: split on whitespace, respecting quotes
(quotes are pruned in the process). -/
def split_args (s : String) : List String :=
  (splitArgsLoop none false [] s.data).map (fun t => String.mk t)

/-! ## Grammar AST

`Keyword`, `Variable`, `Group`, `Star`, `Plus`, `Optional`.  `Variable` is
spelled `var` because `variable` is a Lean keyword.  A `Group` carries its
current argument sequence and its list of closed alternatives, exactly like
the Python class. -/

inductive Grammar where
  | keyword (word : String)
  | var (types : List String)
  | group (args : List Grammar) (alts : List (List Grammar))
  | star (inner : Grammar)
  | plus (inner : Grammar)
  | optional (inner : Grammar)

/-! ## Grammar-string parser: `_parse_grammar` -/

/-- Python `str.islower()` on ASCII text: at least one letter and no
uppercase letter. -/
def pyIslower (s : String) : Bool :=
  s.data.any (fun c => c.isAlpha) && s.data.all (fun c => !c.isUpper)

/-- Python `str.isupper()` on ASCII text. -/
def pyIsupper (s : String) : Bool :=
  s.data.any (fun c => c.isAlpha) && s.data.all (fun c => !c.isLower)

/-- The characters captured by `_grammar_token_re` (`[()|*?+]`). -/
def isGrammarSpecial (c : Char) : Bool :=
  c = '(' || c = ')' || c = '|' || c = '*' || c = '?' || c = '+'

/-- Embeds `re.split(r"([()|*?+])|[ \t\r\n]", s)`: the pattern matches single
characters, so the result interleaves text fragments (possibly empty) with
the captured special characters and `none` for each whitespace separator
(Python puts `None` in the list for the un-captured alternative). -/
def grammarSplitAux : List Char → List Char → List (Option String)
  | acc, [] => [some (String.mk acc.reverse)]
  | acc, c :: rest =>
      if isGrammarSpecial c then
        some (String.mk acc.reverse) :: some (String.mk [c]) :: grammarSplitAux [] rest
      else if isSpaceChar c then
        some (String.mk acc.reverse) :: none :: grammarSplitAux [] rest
      else grammarSplitAux (c :: acc) rest

def grammarTokens (s : String) : List (Option String) := grammarSplitAux [] s.data

/-- Embeds `len(s) if s else 0`: the length `_string_index` assigns to a grammar
token (`None` separators count as 0; `""` also has length 0). -/
def optLen : Option String → Nat
  | some str => str.length
  | none => 0

/-- The running accumulator of `_string_index`: `cumsum.append(length + prev)`
followed by `prev = length` (note: `prev` is overwritten with the bare
length, not the running total). -/
def stringIndexAux : Nat → List (Option String) → List Nat
  | _, [] => []
  | prev, s :: rest => (optLen s + prev) :: stringIndexAux (optLen s) rest

/-- Embeds `_string_index(tok_index, tokens)` of the source (`len(s) if s else 0`
treats both `None` and `""` as length 0). -/
def _string_index (tokIndex : Nat) (tokens : List (Option String)) : Nat :=
  match (stringIndexAux 0 (tokens.take tokIndex)).getLast? with
  | some v => v
  | none => 0

/-- The distinct `ValueError`s raised while parsing a grammar string; each
constructor corresponds to one `raise` site, and carries an index exactly
when the message interpolates `_string_index`. -/
inductive GErr where
  /-- Embeds `Unmatched ')' at index [{index}]` -/
  | unmatchedClose (index : Nat)
  /-- Embeds `Unrecognized token {token!r} starting at index [{index}]` -/
  | unrecognized (token : String) (index : Nat)
  /-- Embeds `Expected {count} ')', but input ended at [{index}]` -/
  | unbalanced (count : Nat) (index : Nat)
  /-- Embeds `Predicate already has quantifier` -/
  | alreadyQuantified
  /-- Embeds `Expected predicate before quantifier` -/
  | expectedPredicate
  /-- Embeds `empty alternative` (from `add_alternative`) -/
  | emptyAlternative
  /-- Embeds `empty alternate` (from `cleanup`) -/
  | emptyAlternate
  /-- Embeds `empty group` (from `cleanup`) -/
  | emptyGroup
deriving DecidableEq

/-- A `Group` under construction: its current sequence of arguments and its
closed alternatives. -/
structure GroupB where
  args : List Grammar
  alts : List (List Grammar)

/-- Embeds `isinstance(x, (Star, Plus, Optional))` -/
def isQuantified : Grammar → Bool
  | .star _ => true
  | .plus _ => true
  | .optional _ => true
  | _ => false

/-- Embeds `Group.add` -/
def GroupB.add (g : GroupB) (x : Grammar) : GroupB :=
  { g with args := g.args ++ [x] }

/-- Embeds `Group.quantify_last` -/
def GroupB.quantify_last (g : GroupB) (q : Grammar → Grammar) : Except GErr GroupB :=
  match g.args.getLast? with
  | some last =>
      if isQuantified last then .error .alreadyQuantified
      else .ok { g with args := g.args.dropLast ++ [q last] }
  | none => .error .expectedPredicate

/-- Embeds `Group.add_alternative` -/
def GroupB.add_alternative (g : GroupB) : Except GErr GroupB :=
  if g.args.isEmpty then .error .emptyAlternative
  else .ok { args := [], alts := g.alts ++ [g.args] }

/-- Embeds `Group.cleanup` -/
def GroupB.cleanup (g : GroupB) : Except GErr GroupB :=
  if g.args.isEmpty then
    if g.alts.isEmpty then .error .emptyGroup else .error .emptyAlternate
  else
    if g.alts.isEmpty then .ok g
    else .ok { args := [], alts := g.alts ++ [g.args] }

/-- The finished group as a Grammar AST node. -/
def GroupB.toGrammar (g : GroupB) : Grammar := .group g.args g.alts

/-- The token loop of `_parse_grammar`.  The Python stack of groups is
modelled as the top group plus the list of groups below it (so the stack is
never empty, as in the source, where popping the root is immediately
followed by the unmatched-`)` error). -/
def parseGrammarAux (allToks : List (Option String)) :
    Nat → GroupB → List GroupB → List (Option String) → Except GErr (GroupB × List GroupB)
  | _, top, stk, [] => .ok (top, stk)
  | i, top, stk, tok :: rest =>
    match tok with
    | none => parseGrammarAux allToks (i+1) top stk rest
    | some s =>
      if s.isEmpty then
        -- `if not token: continue`
        parseGrammarAux allToks (i+1) top stk rest
      else if pyIslower s then
        parseGrammarAux allToks (i+1) (top.add (Grammar.keyword s)) stk rest
      else if pyIsupper s then
        parseGrammarAux allToks (i+1) (top.add (Grammar.var [s])) stk rest
      else if s = "(" then
        parseGrammarAux allToks (i+1) ⟨[], []⟩ (top :: stk) rest
      else if s = ")" then
        match top.cleanup with
        | .error e => .error e
        | .ok fin =>
          match stk with
          | [] => .error (.unmatchedClose (_string_index i allToks))
          | t2 :: stk' => parseGrammarAux allToks (i+1) (t2.add fin.toGrammar) stk' rest
      else if s = "|" then
        match top.add_alternative with
        | .error e => .error e
        | .ok t => parseGrammarAux allToks (i+1) t stk rest
      else if s = "*" then
        match top.quantify_last Grammar.star with
        | .error e => .error e
        | .ok t => parseGrammarAux allToks (i+1) t stk rest
      else if s = "+" then
        match top.quantify_last Grammar.plus with
        | .error e => .error e
        | .ok t => parseGrammarAux allToks (i+1) t stk rest
      else if s = "?" then
        match top.quantify_last Grammar.optional with
        | .error e => .error e
        | .ok t => parseGrammarAux allToks (i+1) t stk rest
      else
        .error (.unrecognized s (_string_index i allToks))

/-- Embeds `_parse_grammar(grammar)`: tokenize, run the stack machine, reject
unclosed groups (Python reports `len(stack) - 1` missing closers and passes
`_string_index(0, tokens)` as the index), and clean up the root group. -/
def _parse_grammar (s : String) : Except GErr Grammar :=
  let toks := grammarTokens s
  match parseGrammarAux toks 0 ⟨[], []⟩ [] toks with
  | .error e => .error e
  | .ok (root, stk) =>
    if stk.isEmpty then
      match root.cleanup with
      | .error e => .error e
      | .ok fin => .ok fin.toGrammar
    else
      .error (.unbalanced stk.length (_string_index 0 toks))

/-! ## NFA tables

A state of the table is a Python dict whose keys are drawn from
`Token.EMIT` (the completed rule), `Token.EPSILON` (a list of successor
indices), and consuming edges (`Token.ANY` or a literal word, each mapping
to one successor).  The builders only ever install a single consuming edge
per state (`match_on` creates it and nothing else adds one), so a state is
modelled as one optional emit marker, one epsilon list (`[]` = key absent)
and one optional consuming edge. -/

/-- A consuming edge label: `Token.ANY` or a literal word. -/
inductive Matcher where
  | any
  | lit (s : String)
deriving DecidableEq

structure NfaState where
  emit : Option Grammar := none
  eps : List Nat := []
  edge : Option (Matcher × Nat) := none

abbrev Table := List NfaState

/-- The Python `{}` state: no emit marker, no transitions. -/
def emptyState : NfaState := { emit := none, eps := [], edge := none }

/-- Embeds `_add_epsilon(from_state, to_index)` minus its runtime check (the check
— no consuming edge may be present — is proved as an invariant of the
builders instead of being re-tested at run time; see the `TableOk`
theorems). -/
def addEpsilon (st : NfaState) (j : Nat) : NfaState :=
  { st with eps := st.eps ++ [j] }

/-- Apply `f` to the last state of a table (Python `table[-1]`). -/
def modifyLast (f : NfaState → NfaState) : Table → Table
  | [] => []
  | [st] => [f st]
  | st :: rest => st :: modifyLast f rest

/-- Apply `f` to the state at index `i` (Python `table[i]`). -/
def modifyNth (f : NfaState → NfaState) : Nat → Table → Table
  | _, [] => []
  | 0, st :: rest => f st :: rest
  | n+1, st :: rest => st :: modifyNth f n rest

/-- Embeds `NFA._shift_table`: re-index one state.  If a state has epsilon
transitions, the copy keeps only them (and the emit marker); otherwise the
consuming edge is re-indexed. -/
def shiftState (n : Nat) (st : NfaState) : NfaState :=
  if st.eps.isEmpty then
    { emit := st.emit, eps := [], edge := st.edge.map (fun p => (p.1, p.2 + n)) }
  else
    { emit := st.emit, eps := st.eps.map (· + n), edge := none }

def shiftTable (t : Table) (n : Nat) : Table := t.map (shiftState n)

namespace NFA

/-- Embeds `NFA.match_on(value)` -/
def match_on (m : Matcher) : Table :=
  [{ edge := some (m, 1) }, emptyState]

/-- Embeds `NFA.star(nfa)` -/
def star (t : Table) : Table :=
  let shifted := modifyLast (fun st => addEpsilon (addEpsilon st 0) (t.length + 1))
    (shiftTable t 1)
  ({ eps := [1, t.length + 1] } : NfaState) :: shifted ++ [emptyState]

/-- Embeds `NFA.plus(nfa)` -/
def plus (t : Table) : Table :=
  modifyLast (fun st => addEpsilon (addEpsilon st 0) t.length) t ++ [emptyState]

/-- Embeds `NFA.optional(nfa)` -/
def optional (t : Table) : Table :=
  let shifted := modifyLast (fun st => addEpsilon st (t.length + 1)) (shiftTable t 1)
  ({ eps := [1, t.length + 1] } : NfaState) :: shifted ++ [emptyState]

/-- The fragment-splicing loop of `NFA.union`: shift each table past the
states already placed, recording where each fragment starts and where its
old accepting state lands.  `off` is the index of the next free slot. -/
def unionBody : List Table → Nat → Table × List Nat × List Nat
  | [], _ => ([], [], [])
  | t :: ts, off =>
      let r := unionBody ts (off + t.length)
      (shiftTable t off ++ r.1, off :: r.2.1, (off + t.length - 1) :: r.2.2)

/-- Embeds `NFA.union(*nfas)`: zero fragments give the one-state NFA, one fragment
is returned as is; otherwise a new start state epsilon-branches to every
fragment and every fragment's old accepting state gets an epsilon edge to a
new shared accepting state. -/
def union (ts : List Table) : Table :=
  match ts with
  | [] => [emptyState]
  | [t] => t
  | _ =>
      let r := unionBody ts 1
      let newEnd := 1 + r.1.length
      let base : Table := ({ eps := r.2.1 } : NfaState) :: r.1 ++ [emptyState]
      (r.2.2).foldl (fun tb e => modifyNth (fun st => addEpsilon st newEnd) e tb) base

/-- Embeds `NFA.concat(*nfas)`: zero fragments give the one-state (already
accepting) NFA; otherwise each next table is shifted past the accumulated
one and linked by an epsilon edge from the old accepting state. -/
def concat (ts : List Table) : Table :=
  match ts with
  | [] => [emptyState]
  | t :: rest =>
      rest.foldl (fun acc nxt =>
        modifyLast (fun st => addEpsilon st acc.length) acc ++ shiftTable nxt acc.length) t

/-- Embeds `NFA.emitter(nfa, rule)`: append an emitting state reached by an
epsilon edge from the old accepting state. -/
def emitter (t : Table) (rule : Grammar) : Table :=
  modifyLast (fun st => addEpsilon st t.length) t ++ [({ emit := some rule } : NfaState)]

end NFA

/-! ## Compilation of the AST: `to_nfa` -/

mutual

/-- Embeds `Grammar.to_nfa` of each AST class: keywords and variables are wrapped
in an emitter (a variable is the Kleene plus of an `ANY` matcher); a group
concatenates its argument sequence if it has one, and otherwise unions its
alternatives (each alternative being a concatenation). -/
def Grammar.to_nfa : Grammar → Table
  | .keyword w => NFA.emitter (NFA.match_on (.lit w)) (.keyword w)
  | .var ts => NFA.emitter (NFA.plus (NFA.match_on .any)) (.var ts)
  | .group args alts =>
      if args.isEmpty then NFA.union (altsToNfa alts)
      else NFA.concat (argsToNfa args)
  | .star g => NFA.star g.to_nfa
  | .plus g => NFA.plus g.to_nfa
  | .optional g => NFA.optional g.to_nfa

def argsToNfa : List Grammar → List Table
  | [] => []
  | g :: gs => g.to_nfa :: argsToNfa gs

def altsToNfa : List (List Grammar) → List Table
  | [] => []
  | a :: rest => NFA.concat (argsToNfa a) :: altsToNfa rest

end

/-- Embeds `Grammar.from_string(s).to_nfa()`: compile a grammar string down to an
automaton table. -/
def compileGrammar (s : String) : Except GErr Table :=
  match _parse_grammar s with
  | .error e => .error e
  | .ok g => .ok g.to_nfa

/-! ## The executor

`transition`, `trans_emit` and `trans_expected` are recursive generators in
Python: from a state they crawl through epsilon transitions depth-first and
yield at the consuming (or final) states.  They are embedded as worklist
recursions producing the same yields in the same order, with a `fuel`
argument; every step consumes one unit of fuel, and `none` means the fuel
ran out (Python diverges, or rather exhausts its recursion limit, exactly
on epsilon cycles, which `((a)*)*`-style grammars can in fact produce). -/

/-- A runtime token: a caller-supplied word, or the virtual `Token.END`
marker appended before simulation. -/
inductive Tok where
  | str (s : String)
  | END
deriving DecidableEq

/-- What `trans_expected` can yield: a key of a state dict (a literal word,
`Token.ANY`, or `Token.EMIT`), or `Token.NOTHING` ("end of input was
expected"). -/
inductive Expected where
  | lit (s : String)
  | any
  | nothing
  | emitMark
deriving DecidableEq

/-- Embeds `tuple(state)`: the keys of a (non-epsilon) state dict, emit marker
first (the insertion order `_shift_table` produces). -/
def stateKeys (st : NfaState) : List Expected :=
  (match st.emit with | some _ => [Expected.emitMark] | none => []) ++
  (match st.edge with
   | some (.any, _) => [Expected.any]
   | some (.lit w, _) => [Expected.lit w]
   | none => [])

/-- Embeds `token in state or Token.ANY in state` for a non-epsilon state. -/
def edgeCanConsume (st : NfaState) (tok : Tok) : Bool :=
  match st.edge with
  | some (.any, _) => true
  | some (.lit w, _) => tok = Tok.str w
  | none => false

/-- Embeds `NFA.transition(state_index, token)`, generalized to a worklist of
state indices (the original call is `transition t fuel [si] tok`).  Epsilon
transitions are crawled depth-first; a state yields its successor when the
token matches its consuming edge, and the final state re-yields itself on
`END`. -/
def transition (t : Table) : Nat → List Nat → Tok → Option (List Nat)
  | 0, _, _ => none
  | _+1, [], _ => some []
  | fuel+1, si :: rest, tok =>
      match t.get? si with
      | none => transition t fuel rest tok
      | some st =>
        if !st.eps.isEmpty then
          transition t fuel (st.eps ++ rest) tok
        else
          match transition t fuel rest tok with
          | none => none
          | some more =>
            if si = t.length - 1 then
              some ((if tok = Tok.END then [si] else []) ++ more)
            else
              match st.edge with
              | some (.any, j) => some ((if tok = Tok.END then [] else [j]) ++ more)
              | some (.lit w, j) => some ((if tok = Tok.str w then [j] else []) ++ more)
              | none => some more

/-- Embeds `NFA.trans_emit(state_index, token, emits)`: like `transition` but each
worklist element carries the tuple of rules emitted on the path to it. -/
def transEmit (t : Table) : Nat → List (List Grammar × Nat) → Tok →
    Option (List (List Grammar × Nat))
  | 0, _, _ => none
  | _+1, [], _ => some []
  | fuel+1, (emits, si) :: rest, tok =>
      match t.get? si with
      | none => transEmit t fuel rest tok
      | some st =>
        let emits' := match st.emit with | some r => emits ++ [r] | none => emits
        if !st.eps.isEmpty then
          transEmit t fuel (st.eps.map (fun e => (emits', e)) ++ rest) tok
        else
          match transEmit t fuel rest tok with
          | none => none
          | some more =>
            if si = t.length - 1 then
              some ((if tok = Tok.END then [(emits', si)] else []) ++ more)
            else
              match st.edge with
              | some (.any, j) => some ((if tok = Tok.END then [] else [(emits', j)]) ++ more)
              | some (.lit w, j) => some ((if tok = Tok.str w then [(emits', j)] else []) ++ more)
              | none => some more

/-- Embeds `NFA.trans_expected(state_index, token)`: for the states that fail to
produce a successor, yield the token categories that would have been
accepted. -/
def transExpected (t : Table) : Nat → List Nat → Tok → Option (List Expected)
  | 0, _, _ => none
  | _+1, [], _ => some []
  | fuel+1, si :: rest, tok =>
      match t.get? si with
      | none => transExpected t fuel rest tok
      | some st =>
        if !st.eps.isEmpty then
          transExpected t fuel (st.eps ++ rest) tok
        else
          match transExpected t fuel rest tok with
          | none => none
          | some more =>
            if si = t.length - 1 then
              some ((if tok = Tok.END then [] else [Expected.nothing]) ++ more)
            else if tok = Tok.END then
              some (stateKeys st ++ more)
            else if !(edgeCanConsume st tok) then
              some (stateKeys st ++ more)
            else
              some more

/-! ## `matches` -/

/-- One round of `matches`: `for state in states: next_states.update(...)`. -/
def transitionAll (t : Table) (fuel : Nat) (tok : Tok) : List Nat → Option (List Nat)
  | [] => some []
  | s :: rest =>
      match transition t fuel [s] tok with
      | none => none
      | some ys =>
        match transitionAll t fuel tok rest with
        | none => none
        | some more => some (ys ++ more)

/-- The token loop of `matches`.  Python keeps the live states in a set;
the embedding keeps a duplicate-free list (`dedup` playing the set's role —
only membership is ever observed). -/
def matchesAux (t : Table) (fuel : Nat) : List Nat → List Tok → Option (List Nat)
  | states, [] => some states
  | states, tok :: rest =>
      match transitionAll t fuel tok states with
      | none => none
      | some nxt => matchesAux t fuel nxt.dedup rest

/-- Embeds `NFA.matches(tokens)`: append `Token.END`, simulate from state `0`, and
test whether the final state index survives. -/
def NFA.matches (t : Table) (fuel : Nat) (tokens : List String) : Option Bool :=
  (matchesAux t fuel [0] (tokens.map Tok.str ++ [Tok.END])).map
    (fun final => final.contains (t.length - 1))

/-! ## `annotate` -/

/-- An entry of a parse stack: a pushed token (a caller word, or the
virtual `END`), or a completed `Parsed(rule, tokens)` record. -/
inductive Entry where
  | tok (t : Tok)
  | parsed (rule : Grammar) (claimed : List String)

abbrev Stack := List Entry

/-- Embeds `isinstance(entry, str)`: only pushed caller words are strings
(`Token.END` is an enum member, not a string). -/
def isStrEntry : Entry → Bool
  | .tok (.str _) => true
  | _ => false

def entryStr : Entry → String
  | .tok (.str s) => s
  | _ => ""

/-- A `Fail(expected, received)` record of a parse error. -/
structure Fail where
  expected : List Expected
  received : Tok
deriving DecidableEq

/-- The stack update performed for one yield of `trans_emit`: push the
token; if a rule was emitted, first pop the trailing plain tokens off the
stack as the rule's claimed span (re-reversed into input order) and push a
`Parsed` record.  Python destructures `rule, = emits`, which throws if a
path ever emitted two rules at once; that unreachable case is `none`. -/
def updateStack (stk : Stack) (emits : List Grammar) (tok : Tok) : Option Stack :=
  match emits with
  | [] => some (stk ++ [.tok tok])
  | [rule] =>
      let r := stk.reverse
      let claimed := (r.takeWhile isStrEntry).reverse.map entryStr
      let rest := (r.dropWhile isStrEntry).reverse
      some (rest ++ [.parsed rule claimed, .tok tok])
  | _ => none

/-- Pair every yield of `trans_emit` with its updated stack. -/
def attachStacks (stk : Stack) (tok : Tok) :
    List (List Grammar × Nat) → Option (List (Nat × Stack))
  | [] => some []
  | (emits, ns) :: rest =>
      match updateStack stk emits tok with
      | none => none
      | some s' =>
        match attachStacks stk tok rest with
        | none => none
        | some more => some ((ns, s') :: more)

/-- One round of `annotate` over the live `(state, stack)` pairs. -/
def annotateRound (t : Table) (fuel : Nat) (tok : Tok) :
    List (Nat × Stack) → Option (List (Nat × Stack))
  | [] => some []
  | (s, stk) :: rest =>
      match transEmit t fuel [([], s)] tok with
      | none => none
      | some ys =>
        match attachStacks stk tok ys with
        | none => none
        | some here =>
          match annotateRound t fuel tok rest with
          | none => none
          | some more => some (here ++ more)

/-- The failure report of `annotate`: one `Fail` per live pair, holding the
deduplicated (`tuple(set(...))`) expectations of its state.  (`ParseError`
keeps only `stack[-1]` of each failure — the `Fail` record itself — so the
stacks are dropped here.) -/
def failuresFor (t : Table) (fuel : Nat) (tok : Tok) :
    List (Nat × Stack) → Option (List Fail)
  | [] => some []
  | (s, _) :: rest =>
      match transExpected t fuel [s] tok with
      | none => none
      | some exp =>
        match failuresFor t fuel tok rest with
        | none => none
        | some more => some ({ expected := exp.dedup, received := tok } :: more)

/-- The token loop of `annotate`: advance every live `(state, stack)` pair;
if no pair survives a token, raise a `ParseError` carrying the deduplicated
set of `Fail` records; after the final `END` the surviving stacks are the
interpretations. -/
def annotateAux (t : Table) (fuel : Nat) :
    List (Nat × Stack) → List Tok → Option (Except (List Fail) (List Stack))
  | pairs, [] => some (.ok (pairs.map Prod.snd))
  | pairs, tok :: rest =>
      match annotateRound t fuel tok pairs with
      | none => none
      | some nexts =>
        if nexts.isEmpty then
          match failuresFor t fuel tok pairs with
          | none => none
          | some fs => some (.error fs.dedup)
        else annotateAux t fuel nexts rest

/-- Embeds `NFA.annotate(tokens)`: append `Token.END` and simulate from state `0`
with the empty stack. -/
def NFA.annotate (t : Table) (fuel : Nat) (tokens : List String) :
    Option (Except (List Fail) (List Stack)) :=
  annotateAux t fuel [(0, [])] (tokens.map Tok.str ++ [Tok.END])

example : split_args "equip \"epic sword\"" = ["equip", "epic sword"] := by decide
example : split_args "say \"oh no...    don\x27t go!" = ["say", "oh no...    don\x27t go!"] := by decide
example : split_args "\"ab\"cd" = ["ab", "cd"] := by decide
example : _parse_grammar "()" = .error .emptyGroup := rfl

/-! ## Derived definitions used by the theorems -/

/-- The compiled automaton of the grammar `take (ITEM)`. -/
def takeItemNfa : Table := (compileGrammar "take (ITEM)").toOption.getD []

/-- Did `annotate` succeed (return interpretations) rather than raise? -/
def isOkResult : Except (List Fail) (List Stack) → Bool
  | .ok _ => true
  | .error _ => false

instance decTableEqNil (t : Table) : Decidable (t = []) :=
  match t with
  | [] => isTrue rfl
  | _ :: _ => isFalse (fun h => List.noConfusion h)

/-- The mutual exclusion `_add_epsilon` enforces at run time: a state with
epsilon transitions never also carries a consuming edge. -/
def Exclusive (t : Table) : Prop := ∀ st ∈ t, st.eps ≠ [] → st.edge = none

/-- The shape every builder re-establishes: the table is nonempty (state 0
is the initial state and the last index the accepting state of the
fragment), a state with epsilon transitions carries no consuming edge, and
the accepting state carries no consuming edge. -/
def TableOk (t : Table) : Prop :=
  t ≠ [] ∧ Exclusive t ∧ (t.getLastD emptyState).edge = none

instance : DecidablePred TableOk := fun t => by
  unfold TableOk Exclusive; infer_instance


/-! # Theorems -/

/-! ## Tokenizer lemmas -/

lemma appendLast_snoc (ts : List (List Char)) (t : List Char) (c : Char) :
    appendLast (ts ++ [t]) c = ts ++ [t ++ [c]] := by
  induction ts with
  | nil => rfl
  | cons a as ih =>
      cases as with
      | nil => rfl
      | cons b bs =>
          show a :: appendLast ((b :: bs) ++ [t]) c = a :: ((b :: bs) ++ [t ++ [c]])
          rw [ih]

/-- Inside a quoted token, every character other than the opening quote is
appended to the token under construction. -/
lemma splitArgsLoop_quoted (q : Char) (ib : Bool) (rest : List Char) :
    ∀ (p : List Char) (ts : List (List Char)) (t : List Char),
      (∀ c ∈ p, c ≠ q) →
      splitArgsLoop (some q) ib (ts ++ [t]) (p ++ rest) =
        splitArgsLoop (some q) ib (ts ++ [t ++ p]) rest := by
  intro p
  induction p with
  | nil => intro ts t _; simp
  | cons c p' ih =>
      intro ts t h
      have hc : ¬ c = q := h c (by simp)
      show splitArgsLoop (some q) ib (ts ++ [t]) (c :: (p' ++ rest)) = _
      rw [splitArgsLoop, if_neg hc, appendLast_snoc]
      rw [ih (ts) (t ++ [c]) (fun d hd => h d (by simp [hd]))]
      simp

/-- Inside an unquoted token, every non-quote non-whitespace character is
appended to the token under construction. -/
lemma splitArgsLoop_token (rest : List Char) :
    ∀ (sfx : List Char) (ts : List (List Char)) (t : List Char),
      (∀ c ∈ sfx, isQuoteChar c = false ∧ isSpaceChar c = false) →
      splitArgsLoop none true (ts ++ [t]) (sfx ++ rest) =
        splitArgsLoop none true (ts ++ [t ++ sfx]) rest := by
  intro sfx
  induction sfx with
  | nil => intro ts t _; simp
  | cons c p' ih =>
      intro ts t h
      obtain ⟨hq, hw⟩ := h c (by simp)
      show splitArgsLoop none true (ts ++ [t]) (c :: (p' ++ rest)) = _
      rw [splitArgsLoop, hq, hw]
      simp only [Bool.false_eq_true, if_false]
      rw [appendLast_snoc]
      rw [ih (ts) (t ++ [c]) (fun d hd => h d (by simp [hd]))]
      simp

/-- C7: the tokenizer splits on whitespace outside quotes, preserves
whitespace verbatim inside a quoted span, strips the quote characters, and
silently closes an unterminated quote at end of string: the two documented
examples hold, internal whitespace and the apostrophe included. -/
theorem split_args_quote_examples :
    split_args "equip \"epic sword\"" = ["equip", "epic sword"] ∧
    split_args "say \"oh no...    don\x27t go!" = ["say", "oh no...    don\x27t go!"] := by
  exact ⟨by decide, by decide⟩

/-- C10: closing a quoted span does not mark the scanner as inside a
token, so the characters after a closing quote start a fresh token: for a
quote-free, whitespace-free prefix `p` and a nonempty such suffix `sfx`,
`split_args ("\"" ++ p ++ "\"" ++ sfx)` is exactly the two tokens `p` and
`sfx`. -/
theorem split_args_after_quote (p sfx : List Char)
    (hp : ∀ c ∈ p, isQuoteChar c = false ∧ isSpaceChar c = false)
    (hs : ∀ c ∈ sfx, isQuoteChar c = false ∧ isSpaceChar c = false)
    (hne : sfx ≠ []) :
    split_args (String.mk ('"' :: p ++ '"' :: sfx)) = [String.mk p, String.mk sfx] := by
  obtain ⟨c0, s', rfl⟩ : ∃ c0 s', sfx = c0 :: s' := by
    cases sfx with
    | nil => exact absurd rfl hne
    | cons a b => exact ⟨a, b, rfl⟩
  obtain ⟨hq0, hw0⟩ := hs c0 (by simp)
  unfold split_args
  show (splitArgsLoop none false [] ('"' :: (p ++ '"' :: (c0 :: s')))).map
      (fun t => String.mk t) = _
  rw [splitArgsLoop]
  simp only [show isQuoteChar '"' = true from rfl, if_true, Bool.false_eq_true, if_false]
  have h2 := splitArgsLoop_quoted '"' false ('"' :: (c0 :: s')) p [] []
    (fun c hc => by
      intro hcq
      have := (hp c hc).1
      rw [hcq] at this
      exact absurd this (by decide))
  simp only [List.nil_append] at h2 ⊢
  rw [h2]
  have h4 : splitArgsLoop (some '"') false [p] ('"' :: (c0 :: s')) =
      splitArgsLoop none false [p] (c0 :: s') := by
    rw [splitArgsLoop]; simp
  rw [h4]
  have h5 : splitArgsLoop none false [p] (c0 :: s') =
      splitArgsLoop none true ([p] ++ [[c0]]) s' := by
    rw [splitArgsLoop]
    simp [hq0, hw0]
  rw [h5]
  have h3 := splitArgsLoop_token [] s' [p] [c0]
    (fun d hd => hs d (by simp [hd]))
  simp only [List.append_nil] at h3
  rw [h3]
  rfl

/-- C10 witness: `split_args "\"ab\"cd" = ["ab", "cd"]`. -/
theorem split_args_after_quote_witness :
    split_args (String.mk ('"' :: ['a', 'b'] ++ '"' :: ['c', 'd'])) =
      [String.mk ['a', 'b'], String.mk ['c', 'd']] :=
  split_args_after_quote ['a', 'b'] ['c', 'd'] (by decide) (by decide) (by decide)

/-! ## Grammar-parser error behavior -/

/-- C6: `take (ITEM` fails reporting one missing `)`; `()` fails with the
empty-group error; a quantifier with no preceding sibling, or applied to an
already-quantified sibling, fails; `|` on an empty current sequence
fails. -/
theorem parse_grammar_error_cases :
    _parse_grammar "take (ITEM" = .error (.unbalanced 1 0) ∧
    _parse_grammar "()" = .error .emptyGroup ∧
    _parse_grammar "*" = .error .expectedPredicate ∧
    _parse_grammar "?" = .error .expectedPredicate ∧
    _parse_grammar "+" = .error .expectedPredicate ∧
    _parse_grammar "a**" = .error .alreadyQuantified ∧
    _parse_grammar "a*?" = .error .alreadyQuantified ∧
    _parse_grammar "|a" = .error .emptyAlternative :=
  ⟨rfl, rfl, rfl, rfl, rfl, rfl, rfl, rfl⟩

/-- C3 counterexample: in `ab cd ef )` the offending `)` is grammar token
number 7; the cumulative length of the tokens consumed before it is 6 (and
its character offset is 9), yet the error carries index 0 — and quantifier
errors carry no offset at all (`a**` raises the bare
`Predicate already has quantifier`). -/
theorem string_index_not_cumulative :
    _parse_grammar "ab cd ef )" = Except.error (GErr.unmatchedClose 0) ∧
    (((grammarTokens "ab cd ef )").take 7).map optLen).sum = 6 ∧
    (0 : Nat) ≠ 6 ∧
    _parse_grammar "a**" = Except.error GErr.alreadyQuantified :=
  ⟨rfl, rfl, by decide, rfl⟩

/-! ## The Variable fragment -/

/-- C2 counterexample: the `Variable` fragment has four states, not two,
and a grammar whose `Variable` receives two or more tokens in that position
still matches. -/
theorem variable_fragment_counterexample :
    ((Grammar.var ["ITEM"]).to_nfa).length = 4 ∧
    NFA.matches takeItemNfa 30 ["take", "a", "b"] = some true :=
  ⟨rfl, rfl⟩

/-- C2 amended: a `Variable` compiles to
`emitter(plus(match_on(Token.ANY)))` — a four-state fragment whose start
state consumes one token of any value and may loop for more — so a
`Variable` placeholder given one, two or more input tokens matches. -/
theorem variable_fragment_shape : ∀ (ts : List String),
    (Grammar.var ts).to_nfa =
      [{ emit := none, eps := [], edge := some (Matcher.any, 1) },
       { emit := none, eps := [0, 2], edge := none },
       { emit := none, eps := [3], edge := none },
       { emit := some (Grammar.var ts), eps := [], edge := none }] ∧
    NFA.matches takeItemNfa 30 ["take", "sword"] = some true ∧
    NFA.matches takeItemNfa 30 ["take", "a", "b"] = some true :=
  fun _ => ⟨rfl, rfl, rfl⟩

/-! ## The grammar `take (ITEM)` -/

/-- C8: for the compiled grammar `take (ITEM)`, `matches ["take","sword"]`
is true, `matches ["take"]` is false, and `annotate ["take","sword"]`
returns exactly one interpretation, in which the `ITEM` variable claims
`["sword"]`. -/
theorem take_item_examples :
    compileGrammar "take (ITEM)" = .ok takeItemNfa ∧
    NFA.matches takeItemNfa 30 ["take", "sword"] = some true ∧
    NFA.matches takeItemNfa 30 ["take"] = some false ∧
    NFA.annotate takeItemNfa 30 ["take", "sword"] =
      some (.ok [[Entry.parsed (.keyword "take") ["take"],
                  Entry.parsed (.var ["ITEM"]) ["sword"], Entry.tok .END]]) :=
  ⟨rfl, rfl, rfl, rfl⟩

/-! ## The index computation of `_string_index` (C3 amended) -/

lemma getLast?_cons_of_ne_nil {α : Type} (y : α) (ys : List α) (h : ys ≠ []) :
    (y :: ys).getLast? = ys.getLast? := by
  cases ys with
  | nil => exact absurd rfl h
  | cons b bs => rw [List.getLast?_cons_cons]

lemma stringIndexAux_ne_nil (l : List (Option String)) (prev : Nat) (h : l ≠ []) :
    stringIndexAux prev l ≠ [] := by
  cases l with
  | nil => exact absurd rfl h
  | cons a as => simp [stringIndexAux]

/-- The last entry of the `_string_index` accumulator over `pre ++ [a, b]`
is `optLen b + optLen a`: because `prev` is overwritten instead of
accumulated, only the final two tokens contribute. -/
lemma stringIndexAux_last_two : ∀ (pre : List (Option String)) (a b : Option String)
    (prev : Nat),
    (stringIndexAux prev (pre ++ [a, b])).getLast? = some (optLen b + optLen a) := by
  intro pre
  induction pre with
  | nil => intro a b prev; rfl
  | cons x l ih =>
      intro a b prev
      show ((optLen x + prev) :: stringIndexAux (optLen x) (l ++ [a, b])).getLast? = _
      rw [getLast?_cons_of_ne_nil _ _ (stringIndexAux_ne_nil _ _ (by simp)), ih]

/-- C3 amended, general part: for any token position `i ≥ 2` inside the
list, `_string_index i tokens` is the sum of the lengths of just the two
tokens immediately before position `i` (whitespace separators counting 0) —
not the cumulative length of all consumed tokens, and not a character
offset. -/
theorem string_index_eq_last_two (toks : List (Option String)) (i : Nat)
    (h2 : 2 ≤ i) (hlen : i ≤ toks.length) :
    _string_index i toks =
      optLen (toks.getD (i-1) none) + optLen (toks.getD (i-2) none) := by
  have hi1 : i - 1 < toks.length := by omega
  have hi2 : i - 2 < toks.length := by omega
  have e1 : toks.take i = toks.take (i-1) ++ [toks[i-1]] := by
    have h : i = (i-1)+1 := by omega
    conv_lhs => rw [h]
    rw [List.take_succ, List.getElem?_eq_getElem hi1]
    simp
  have e2 : toks.take (i-1) = toks.take (i-2) ++ [toks[i-2]] := by
    have h : i - 1 = (i-2)+1 := by omega
    conv_lhs => rw [h]
    rw [List.take_succ, List.getElem?_eq_getElem (by omega : i - 2 < toks.length)]
    simp
  have e3 : toks.take i = toks.take (i-2) ++ [toks[i-2], toks[i-1]] := by
    rw [e1, e2, List.append_assoc]
    rfl
  unfold _string_index
  rw [e3, stringIndexAux_last_two]
  have g1 : toks.getD (i-1) none = toks[i-1] := List.getD_eq_getElem toks none hi1
  have g2 : toks.getD (i-2) none = toks[i-2] := List.getD_eq_getElem toks none hi2
  rw [g1, g2]

/-- Witness for the amended C3: at `i = 3` over `[some "ab", none,
some "cd"]` the index is `optLen (some "cd") + optLen none = 2`. -/
theorem string_index_eq_last_two_witness :
    _string_index 3 [some "ab", none, some "cd"] =
      optLen ([some "ab", none, some "cd"].getD 2 none) +
        optLen ([some "ab", none, some "cd"].getD 1 none) :=
  string_index_eq_last_two [some "ab", none, some "cd"] 3 (by decide) (by decide)

/-! ## Builder invariants (C5) -/

lemma addEpsilon_edge (st : NfaState) (j : Nat) : (addEpsilon st j).edge = st.edge := rfl

lemma shiftState_exclusive (n : Nat) (st : NfaState) :
    (shiftState n st).eps ≠ [] → (shiftState n st).edge = none := by
  unfold shiftState
  split
  · intro h
    exact absurd rfl h
  · intro _
    rfl

lemma shiftState_edge_none (n : Nat) (st : NfaState) (h : st.edge = none) :
    (shiftState n st).edge = none := by
  unfold shiftState
  split
  · simp [h]
  · rfl

lemma exclusive_shiftTable (t : Table) (n : Nat) : Exclusive (shiftTable t n) := by
  intro st' hmem
  obtain ⟨st, _, rfl⟩ := List.mem_map.mp hmem
  exact shiftState_exclusive n st

lemma exclusive_append {t1 t2 : Table} (h1 : Exclusive t1) (h2 : Exclusive t2) :
    Exclusive (t1 ++ t2) := by
  intro st hmem
  rcases List.mem_append.mp hmem with h | h
  · exact h1 st h
  · exact h2 st h

lemma modifyLast_snoc (f : NfaState → NfaState) (ts : Table) (l : NfaState) :
    modifyLast f (ts ++ [l]) = ts ++ [f l] := by
  induction ts with
  | nil => rfl
  | cons a as ih =>
      cases as with
      | nil => rfl
      | cons b bs =>
          show a :: modifyLast f ((b :: bs) ++ [l]) = a :: ((b :: bs) ++ [f l])
          rw [ih]

/-- A `TableOk` table decomposes as a snoc whose last state is edge-free. -/
lemma tableOk_snoc {t : Table} (h : TableOk t) :
    ∃ ts l, t = ts ++ [l] ∧ Exclusive t ∧ NfaState.edge l = none := by
  obtain ⟨hne, hex, hlast⟩ := h
  rcases List.eq_nil_or_concat t with rfl | ⟨ts, l, rfl⟩
  · exact absurd rfl hne
  · refine ⟨ts, l, by simp [List.concat_eq_append], hex, ?_⟩
    rw [List.concat_eq_append] at hlast
    rw [List.getLastD_eq_getLast?, List.getLast?_concat] at hlast
    exact hlast

lemma getLastD_concat' (ts : Table) (l d : NfaState) :
    (ts ++ [l]).getLastD d = l := by
  rw [List.getLastD_eq_getLast?, List.getLast?_concat]
  rfl

/-- C5 for `match_on`. -/
lemma tableOk_match_on (m : Matcher) : TableOk (NFA.match_on m) := by
  refine ⟨by simp [NFA.match_on], ?_, rfl⟩
  intro st hmem heps
  unfold NFA.match_on at hmem
  rcases List.mem_cons.mp hmem with rfl | h
  · exact absurd rfl heps
  · rcases List.mem_singleton.mp h with rfl
    rfl

/-- C5 for `star`. -/
lemma tableOk_star {t : Table} (h : TableOk t) : TableOk (NFA.star t) := by
  obtain ⟨ts, l, rfl, hex, hedge⟩ := tableOk_snoc h
  unfold NFA.star
  rw [show shiftTable (ts ++ [l]) 1 = shiftTable ts 1 ++ [shiftState 1 l] from
    List.map_append _ _ _, modifyLast_snoc]
  constructor
  · simp
  constructor
  · intro st hmem heps
    rcases List.mem_cons.mp hmem with rfl | hmem
    · rfl
    rcases List.mem_append.mp hmem with hmem | hmem
    · rcases List.mem_append.mp hmem with hmem | hmem
      · exact exclusive_shiftTable ts 1 st hmem heps
      · rcases List.mem_singleton.mp hmem with rfl
        rw [addEpsilon_edge, addEpsilon_edge]
        exact shiftState_edge_none 1 l hedge
    · rcases List.mem_singleton.mp hmem with rfl
      rfl
  · rw [show ({ eps := [1, (ts ++ [l]).length + 1] } : NfaState) ::
        (shiftTable ts 1 ++ [addEpsilon (addEpsilon (shiftState 1 l) 0) ((ts ++ [l]).length + 1)]) ++
        [emptyState] =
        (({ eps := [1, (ts ++ [l]).length + 1] } : NfaState) ::
        (shiftTable ts 1 ++ [addEpsilon (addEpsilon (shiftState 1 l) 0) ((ts ++ [l]).length + 1)])) ++
        [emptyState] from rfl, getLastD_concat']
    rfl

/-- C5 for `plus`. -/
lemma tableOk_plus {t : Table} (h : TableOk t) : TableOk (NFA.plus t) := by
  obtain ⟨ts, l, rfl, hex, hedge⟩ := tableOk_snoc h
  unfold NFA.plus
  rw [modifyLast_snoc]
  refine ⟨by simp, ?_, ?_⟩
  · intro st hmem heps
    rcases List.mem_append.mp hmem with hmem | hmem
    · rcases List.mem_append.mp hmem with hmem | hmem
      · exact hex st (List.mem_append.mpr (Or.inl hmem)) heps
      · rcases List.mem_singleton.mp hmem with rfl
        rw [addEpsilon_edge, addEpsilon_edge]
        exact hedge
    · rcases List.mem_singleton.mp hmem with rfl
      rfl
  · rw [List.append_assoc, show [addEpsilon (addEpsilon l 0) (ts ++ [l]).length] ++ [emptyState] =
      [addEpsilon (addEpsilon l 0) (ts ++ [l]).length, emptyState] from rfl]
    rw [show ts ++ [addEpsilon (addEpsilon l 0) (ts ++ [l]).length, emptyState] =
      (ts ++ [addEpsilon (addEpsilon l 0) (ts ++ [l]).length]) ++ [emptyState] by simp]
    rw [getLastD_concat']
    rfl

/-- C5 for `optional`. -/
lemma tableOk_optional {t : Table} (h : TableOk t) : TableOk (NFA.optional t) := by
  obtain ⟨ts, l, rfl, hex, hedge⟩ := tableOk_snoc h
  unfold NFA.optional
  rw [show shiftTable (ts ++ [l]) 1 = shiftTable ts 1 ++ [shiftState 1 l] from
    List.map_append _ _ _, modifyLast_snoc]
  constructor
  · simp
  constructor
  · intro st hmem heps
    rcases List.mem_cons.mp hmem with rfl | hmem
    · rfl
    rcases List.mem_append.mp hmem with hmem | hmem
    · rcases List.mem_append.mp hmem with hmem | hmem
      · exact exclusive_shiftTable ts 1 st hmem heps
      · rcases List.mem_singleton.mp hmem with rfl
        rw [addEpsilon_edge]
        exact shiftState_edge_none 1 l hedge
    · rcases List.mem_singleton.mp hmem with rfl
      rfl
  · rw [show ({ eps := [1, (ts ++ [l]).length + 1] } : NfaState) ::
        (shiftTable ts 1 ++ [addEpsilon (shiftState 1 l) ((ts ++ [l]).length + 1)]) ++
        [emptyState] =
        (({ eps := [1, (ts ++ [l]).length + 1] } : NfaState) ::
        (shiftTable ts 1 ++ [addEpsilon (shiftState 1 l) ((ts ++ [l]).length + 1)])) ++
        [emptyState] from rfl, getLastD_concat']
    rfl

/-- C5 for `emitter`. -/
lemma tableOk_emitter {t : Table} (h : TableOk t) (rule : Grammar) :
    TableOk (NFA.emitter t rule) := by
  obtain ⟨ts, l, rfl, hex, hedge⟩ := tableOk_snoc h
  unfold NFA.emitter
  rw [modifyLast_snoc]
  refine ⟨by simp, ?_, ?_⟩
  · intro st hmem heps
    rcases List.mem_append.mp hmem with hmem | hmem
    · rcases List.mem_append.mp hmem with hmem | hmem
      · exact hex st (List.mem_append.mpr (Or.inl hmem)) heps
      · rcases List.mem_singleton.mp hmem with rfl
        rw [addEpsilon_edge]
        exact hedge
    · rcases List.mem_singleton.mp hmem with rfl
      rfl
  · rw [List.append_assoc]
    rw [show [addEpsilon l (ts ++ [l]).length] ++ [({ emit := some rule } : NfaState)] =
      [addEpsilon l (ts ++ [l]).length, ({ emit := some rule } : NfaState)] from rfl]
    rw [show ts ++ [addEpsilon l (ts ++ [l]).length, ({ emit := some rule } : NfaState)] =
      (ts ++ [addEpsilon l (ts ++ [l]).length]) ++ [({ emit := some rule } : NfaState)] by simp]
    rw [getLastD_concat']

/-- C5 for `concat`, fold form. -/
lemma tableOk_concat_fold : ∀ (rest : List Table) (acc : Table), TableOk acc →
    (∀ u ∈ rest, TableOk u) →
    TableOk (rest.foldl (fun acc nxt =>
      modifyLast (fun st => addEpsilon st acc.length) acc ++ shiftTable nxt acc.length) acc) := by
  intro rest
  induction rest with
  | nil => intro acc hacc _; exact hacc
  | cons nxt rest' ih =>
      intro acc hacc hall
      apply ih
      · obtain ⟨as, al, rfl, hexa, hedgea⟩ := tableOk_snoc hacc
        obtain ⟨ns, nl, hn, hexn, hedgen⟩ := tableOk_snoc (hall nxt (by simp))
        show TableOk (modifyLast (fun st => addEpsilon st (as ++ [al]).length) (as ++ [al]) ++
          shiftTable nxt (as ++ [al]).length)
        rw [modifyLast_snoc, hn]
        rw [show shiftTable (ns ++ [nl]) (as ++ [al]).length =
          shiftTable ns (as ++ [al]).length ++ [shiftState (as ++ [al]).length nl] from
          List.map_append _ _ _]
        refine ⟨by simp, ?_, ?_⟩
        · intro st hmem heps
          rcases List.mem_append.mp hmem with hmem | hmem
          · rcases List.mem_append.mp hmem with hmem | hmem
            · exact hexa st (List.mem_append.mpr (Or.inl hmem)) heps
            · rcases List.mem_singleton.mp hmem with rfl
              rw [addEpsilon_edge]
              exact hedgea
          · rcases List.mem_append.mp hmem with hmem | hmem
            · exact exclusive_shiftTable ns _ st hmem heps
            · rcases List.mem_singleton.mp hmem with rfl
              exact shiftState_edge_none _ nl hedgen
        · rw [show (as ++ [addEpsilon al (as ++ [al]).length]) ++
              (shiftTable ns (as ++ [al]).length ++ [shiftState (as ++ [al]).length nl]) =
              ((as ++ [addEpsilon al (as ++ [al]).length]) ++ shiftTable ns (as ++ [al]).length) ++
              [shiftState (as ++ [al]).length nl] by simp]
          rw [getLastD_concat']
          exact shiftState_edge_none _ nl hedgen
      · intro u hu
        exact hall u (by simp [hu])

/-- C5 for `concat`. -/
lemma tableOk_concat (ts : List Table) (h : ∀ u ∈ ts, TableOk u) :
    TableOk (NFA.concat ts) := by
  match ts with
  | [] => exact (by decide : TableOk [emptyState])
  | t :: rest =>
      exact tableOk_concat_fold rest t (h t (by simp)) (fun u hu => h u (by simp [hu]))

lemma modifyNth_length (f : NfaState → NfaState) :
    ∀ (e : Nat) (tb : Table), (modifyNth f e tb).length = tb.length := by
  intro e tb
  induction tb generalizing e with
  | nil => cases e <;> rfl
  | cons a as ih => cases e with
      | zero => rfl
      | succ e' => simpa [modifyNth] using ih e'

lemma modifyNth_getElem? (f : NfaState → NfaState) :
    ∀ (tb : Table) (e i : Nat),
      (modifyNth f e tb)[i]? = if i = e then (tb[i]?).map f else tb[i]? := by
  intro tb
  induction tb with
  | nil =>
      intro e i
      cases e <;> cases i <;> simp [modifyNth]
  | cons a as ih =>
      intro e i
      cases e with
      | zero =>
          cases i with
          | zero => simp [modifyNth]
          | succ j => simp [modifyNth]
      | succ e' =>
          cases i with
          | zero => simp [modifyNth]
          | succ j =>
              have hred : (modifyNth f (e'+1) (a :: as))[j+1]? = (modifyNth f e' as)[j]? := by
                rw [show modifyNth f (e'+1) (a :: as) = a :: modifyNth f e' as from rfl,
                  List.getElem?_cons_succ]
              rw [hred, ih e' j, List.getElem?_cons_succ]
              by_cases hje : j = e'
              · rw [if_pos hje, if_pos (by omega)]
              · rw [if_neg hje, if_neg (by omega)]

/-- Adding epsilon edges at a list of edge-free positions preserves the
pointwise edges, the length, and the epsilon/edge exclusion. -/
lemma foldl_addEps_spec (j : Nat) : ∀ (es : List Nat) (tb : Table),
    (∀ (i : Nat) (st : NfaState), tb[i]? = some st → st.eps ≠ [] → st.edge = none) →
    (∀ e ∈ es, ∀ (st : NfaState), tb[e]? = some st → st.edge = none) →
    (∀ (i : Nat), ((es.foldl (fun acc e => modifyNth (fun s => addEpsilon s j) e acc) tb)[i]?).map
        NfaState.edge = (tb[i]?).map NfaState.edge) ∧
    (es.foldl (fun acc e => modifyNth (fun s => addEpsilon s j) e acc) tb).length = tb.length ∧
    (∀ (i : Nat) (st : NfaState),
      (es.foldl (fun acc e => modifyNth (fun s => addEpsilon s j) e acc) tb)[i]? = some st →
      st.eps ≠ [] → st.edge = none) := by
  intro es
  induction es with
  | nil => intro tb h1 _; exact ⟨fun i => rfl, rfl, h1⟩
  | cons e es' ih =>
      intro tb h1 h2
      have hmodexc : ∀ (i : Nat) (st : NfaState),
          (modifyNth (fun s => addEpsilon s j) e tb)[i]? = some st →
          st.eps ≠ [] → st.edge = none := by
        intro i st hst heps0
        rw [modifyNth_getElem?] at hst
        by_cases hie : i = e
        · rw [if_pos hie] at hst
          obtain ⟨st0, hst0, rfl⟩ := Option.map_eq_some'.mp hst
          rw [addEpsilon_edge]
          exact h2 e (by simp) st0 (hie ▸ hst0)
        · rw [if_neg hie] at hst
          exact h1 i st hst heps0
      have hmodends : ∀ e' ∈ es', ∀ (st : NfaState),
          (modifyNth (fun s => addEpsilon s j) e tb)[e']? = some st →
          st.edge = none := by
        intro e' he' st hst
        rw [modifyNth_getElem?] at hst
        by_cases hie : e' = e
        · rw [if_pos hie] at hst
          obtain ⟨st0, hst0, rfl⟩ := Option.map_eq_some'.mp hst
          rw [addEpsilon_edge]
          exact h2 e (by simp) st0 (hie ▸ hst0)
        · rw [if_neg hie] at hst
          exact h2 e' (by simp [he']) st hst
      obtain ⟨ihedge, ihlen, ihexc⟩ :=
        ih (modifyNth (fun s => addEpsilon s j) e tb) hmodexc hmodends
      refine ⟨?_, ?_, ?_⟩
      · intro i
        show ((es'.foldl (fun acc e => modifyNth (fun s => addEpsilon s j) e acc)
            (modifyNth (fun s => addEpsilon s j) e tb))[i]?).map NfaState.edge =
          (tb[i]?).map NfaState.edge
        rw [ihedge i, modifyNth_getElem?]
        by_cases hie : i = e
        · rw [if_pos hie]
          cases htb : tb[i]? with
          | none => rfl
          | some st0 => simp [addEpsilon_edge]
        · rw [if_neg hie]
      · show (es'.foldl (fun acc e => modifyNth (fun s => addEpsilon s j) e acc)
            (modifyNth (fun s => addEpsilon s j) e tb)).length = tb.length
        rw [ihlen, modifyNth_length]
      · intro i st hst
        apply ihexc i st
        exact hst

lemma length_shiftTable (t : Table) (n : Nat) : (shiftTable t n).length = t.length := by
  simp [shiftTable]

/-- Each fragment spliced by `unionBody` lands with its old accepting
state — edge-free by `TableOk` — at the recorded end position. -/
lemma unionBody_spec : ∀ (ts : List Table) (off : Nat), (∀ u ∈ ts, TableOk u) →
    Exclusive (NFA.unionBody ts off).1 ∧
    (∀ e ∈ (NFA.unionBody ts off).2.2,
      off ≤ e ∧ e < off + (NFA.unionBody ts off).1.length ∧
      ∀ (st : NfaState), (NFA.unionBody ts off).1[e - off]? = some st → st.edge = none) := by
  intro ts
  induction ts with
  | nil =>
      intro off _
      exact ⟨fun st h => absurd h (List.not_mem_nil st), by simp [NFA.unionBody]⟩
  | cons t ts' ih =>
      intro off hall
      obtain ⟨ihex, ihends⟩ := ih (off + t.length) (fun u hu => hall u (by simp [hu]))
      have ht := hall t (by simp)
      have hred1 : (NFA.unionBody (t :: ts') off).1 =
          shiftTable t off ++ (NFA.unionBody ts' (off + t.length)).1 := rfl
      have hred2 : (NFA.unionBody (t :: ts') off).2.2 =
          (off + t.length - 1) :: (NFA.unionBody ts' (off + t.length)).2.2 := rfl
      have htlen : 1 ≤ t.length := by
        obtain ⟨hne, _, _⟩ := ht
        cases t with
        | nil => exact absurd rfl hne
        | cons a b => simp
      rw [hred1, hred2]
      have hlens : (shiftTable t off ++ (NFA.unionBody ts' (off + t.length)).1).length =
          t.length + (NFA.unionBody ts' (off + t.length)).1.length := by
        rw [List.length_append, length_shiftTable]
      constructor
      · exact exclusive_append (exclusive_shiftTable t off) ihex
      · intro e he
        rcases List.mem_cons.mp he with rfl | he'
        · refine ⟨by omega, by omega, ?_⟩
          intro st hst
          have he0 : off + t.length - 1 - off = t.length - 1 := by omega
          rw [he0] at hst
          have hlt : t.length - 1 < (shiftTable t off).length := by
            rw [length_shiftTable]
            omega
          rw [List.getElem?_append_left hlt] at hst
          obtain ⟨ts0, l0, rfl, _, hl0⟩ := tableOk_snoc ht
          rw [show shiftTable (ts0 ++ [l0]) off = (ts0 ++ [l0]).map (shiftState off) from rfl,
            List.getElem?_map] at hst
          have hget : (ts0 ++ [l0])[(ts0 ++ [l0]).length - 1]? = some l0 := by
            rw [List.getElem?_append_right (by simp)]
            simp
          rw [hget] at hst
          obtain rfl : shiftState off l0 = st := by simpa using hst
          exact shiftState_edge_none off l0 hl0
        · obtain ⟨hle, hlt, hstp⟩ := ihends e he'
          refine ⟨by omega, by omega, ?_⟩
          intro st hste
          have harith : e - off = (shiftTable t off).length + (e - (off + t.length)) := by
            rw [length_shiftTable]
            omega
          rw [harith, List.getElem?_append_right (by omega)] at hste
          have harith2 : (shiftTable t off).length + (e - (off + t.length)) -
              (shiftTable t off).length = e - (off + t.length) := by omega
          rw [harith2] at hste
          exact hstp st hste

/-- C5 for `union`. -/
lemma tableOk_union (ts : List Table) (h : ∀ u ∈ ts, TableOk u) : TableOk (NFA.union ts) := by
  match ts with
  | [] => exact (by decide : TableOk [emptyState])
  | [t] => exact h t (by simp)
  | t1 :: t2 :: rest =>
      obtain ⟨hex, hends⟩ := unionBody_spec (t1 :: t2 :: rest) 1 h
      show TableOk (((NFA.unionBody (t1 :: t2 :: rest) 1).2.2).foldl
        (fun tb e => modifyNth
          (fun st => addEpsilon st (1 + (NFA.unionBody (t1 :: t2 :: rest) 1).1.length)) e tb)
        (({ eps := (NFA.unionBody (t1 :: t2 :: rest) 1).2.1 } : NfaState) ::
          (NFA.unionBody (t1 :: t2 :: rest) 1).1 ++ [emptyState]))
      set ub := NFA.unionBody (t1 :: t2 :: rest) 1 with hub
      set base : Table :=
        ({ eps := ub.2.1 } : NfaState) :: ub.1 ++ [emptyState] with hbase
      have hexb : Exclusive base := by
        intro st hmem heps
        rw [hbase] at hmem
        rcases List.mem_cons.mp hmem with rfl | hmem
        · rfl
        rcases List.mem_append.mp hmem with hmem | hmem
        · exact hex st hmem heps
        · rcases List.mem_singleton.mp hmem with rfl
          rfl
      have hexcbase : ∀ (i : Nat) (st : NfaState), base[i]? = some st →
          st.eps ≠ [] → st.edge = none := by
        intro i st hst heps
        have hmem : st ∈ base := List.mem_iff_getElem?.mpr ⟨i, hst⟩
        exact hexb st hmem heps
      have hendbase : ∀ e ∈ ub.2.2, ∀ (st : NfaState), base[e]? = some st →
          st.edge = none := by
        intro e he st hst
        obtain ⟨h1e, h2e, h3e⟩ := hends e he
        cases e with
        | zero => omega
        | succ e' =>
            rw [hbase] at hst
            simp only [List.cons_append, List.getElem?_cons_succ] at hst
            rw [List.getElem?_append_left (show e' < ub.1.length by omega)] at hst
            have : e' + 1 - 1 = e' := rfl
            rw [this] at h3e
            exact h3e st hst
      obtain ⟨hedges, hlen, hexcr⟩ := foldl_addEps_spec (1 + ub.1.length) ub.2.2 base
        hexcbase hendbase
      have hlenbase : base.length = ub.1.length + 2 := by
        rw [hbase]
        simp
      refine ⟨?_, ?_, ?_⟩
      · apply List.ne_nil_of_length_pos
        rw [hlen, hlenbase]
        omega
      · intro st hmem heps
        obtain ⟨i, hi⟩ := List.mem_iff_getElem?.mp hmem
        exact hexcr i st hi heps
      · have hbaseat : base[ub.1.length + 1]? = some emptyState := by
          rw [hbase]
          simp only [List.cons_append, List.getElem?_cons_succ]
          rw [List.getElem?_append_right (Nat.le_refl _)]
          simp
        have hmap := hedges (ub.1.length + 1)
        rw [hbaseat] at hmap
        obtain ⟨st, hst, hedge⟩ := Option.map_eq_some'.mp hmap
        rw [List.getLastD_eq_getLast?, List.getLast?_eq_getElem?]
        rw [hlen, hlenbase]
        have : ub.1.length + 2 - 1 = ub.1.length + 1 := rfl
        rw [this, hst]
        exact hedge

/-- C5: every automaton table produced by a build operation (`match_on`,
`star`, `plus`, `optional`, `emitter`, `concat`, `union`) satisfies the
table shape: the table is nonempty — state 0 is the initial state and the
last index the sole accepting state of the fragment — and no state both
carries a consuming (token or `ANY`) edge and an epsilon transition
list. -/
theorem builders_preserve_TableOk :
    ∀ (m : Matcher) (rule : Grammar) (t : Table) (ts : List Table),
    TableOk (NFA.match_on m) ∧
    (TableOk t → TableOk (NFA.star t) ∧ TableOk (NFA.plus t) ∧ TableOk (NFA.optional t) ∧
      TableOk (NFA.emitter t rule)) ∧
    ((∀ u ∈ ts, TableOk u) → TableOk (NFA.concat ts) ∧ TableOk (NFA.union ts)) :=
  fun m rule t ts =>
    ⟨tableOk_match_on m,
     fun h => ⟨tableOk_star h, tableOk_plus h, tableOk_optional h, tableOk_emitter h rule⟩,
     fun h => ⟨tableOk_concat ts h, tableOk_union ts h⟩⟩

/-- C5 witness: the invariant holds for concrete builds (a starred matcher
and a union of two matchers). -/
theorem builders_preserve_TableOk_witness :
    TableOk (NFA.star (NFA.match_on Matcher.any)) ∧
    TableOk (NFA.union [NFA.match_on Matcher.any, NFA.match_on (Matcher.lit "x")]) :=
  ⟨((builders_preserve_TableOk Matcher.any (Grammar.keyword "k") (NFA.match_on Matcher.any)
      []).2.1 (by decide)).1,
   ((builders_preserve_TableOk Matcher.any (Grammar.keyword "k") (NFA.match_on Matcher.any)
      [NFA.match_on Matcher.any, NFA.match_on (Matcher.lit "x")]).2.2 (by decide)).2⟩

/-! ## `matches` vs `annotate` (C1) -/

/-- Dropping the emit annotations from a `trans_emit` crawl gives exactly
the `transition` crawl: same fuel demands, same yields in the same
order. -/
lemma transEmit_proj (t : Table) (tok : Tok) :
    ∀ (fuel : Nat) (ws : List (List Grammar × Nat)),
      (transEmit t fuel ws tok).map (List.map Prod.snd) =
        transition t fuel (ws.map Prod.snd) tok := by
  intro fuel
  induction fuel with
  | zero => intro ws; rfl
  | succ fuel ih =>
      intro ws
      cases ws with
      | nil => rfl
      | cons p rest =>
          obtain ⟨emits, si⟩ := p
          show (transEmit t (fuel+1) ((emits, si) :: rest) tok).map (List.map Prod.snd) =
            transition t (fuel+1) (si :: List.map Prod.snd rest) tok
          rw [transEmit, transition]
          cases hget : t.get? si with
          | none =>
              simp only [hget]
              exact ih rest
          | some st =>
              simp only [hget]
              by_cases heps : st.eps.isEmpty
              · simp only [heps, Bool.not_true, Bool.false_eq_true, if_false]
                rw [← ih rest]
                cases hrest : transEmit t fuel rest tok with
                | none => rfl
                | some more =>
                    simp only [Option.map_some']
                    by_cases hlast : si = t.length - 1
                    · simp only [hlast, if_true, if_pos rfl]
                      by_cases hend : tok = Tok.END
                      · simp [hend]
                      · simp [hend]
                    · simp only [if_neg hlast]
                      cases hedge : st.edge with
                      | none => simp
                      | some mj =>
                          obtain ⟨m, j⟩ := mj
                          cases m with
                          | any =>
                              by_cases hend : tok = Tok.END
                              · simp [hend]
                              · simp [hend]
                          | lit w =>
                              by_cases hw : tok = Tok.str w
                              · simp [hw]
                              · simp [hw]
              · simp only [heps, Bool.not_false, if_true, Bool.not_eq_true']
                rw [ih]
                congr 1
                simp [List.map_map, Function.comp]


/-- On the `END` token every yield of `trans_emit` is the accepting
state: no edge consumes `END`, only the final state re-yields itself. -/
lemma transEmit_end_last (t : Table) :
    ∀ (fuel : Nat) (ws ys : List (List Grammar × Nat)),
      transEmit t fuel ws Tok.END = some ys → ∀ q ∈ ys, q.2 = t.length - 1 := by
  intro fuel
  induction fuel with
  | zero =>
      intro ws ys h
      exact absurd h (by rw [transEmit]; simp)
  | succ fuel ih =>
      intro ws ys h q hq
      cases ws with
      | nil =>
          rw [transEmit] at h
          obtain rfl : ([] : List (List Grammar × Nat)) = ys := by injection h
          exact absurd hq (List.not_mem_nil q)
      | cons p rest =>
          obtain ⟨emits, si⟩ := p
          rw [transEmit] at h
          cases hget : t.get? si with
          | none =>
              simp only [hget] at h
              exact ih rest ys h q hq
          | some st =>
              simp only [hget] at h
              by_cases heps : st.eps.isEmpty
              · simp only [heps, Bool.not_true, Bool.false_eq_true, if_false] at h
                split at h
                · exact absurd h (by simp)
                · rename_i more hrest
                  have hmore := ih rest more hrest
                  split at h
                  · rename_i hlast
                    rw [if_pos trivial] at h
                    injection h with h'
                    rw [List.singleton_append] at h'
                    subst h'
                    rcases List.mem_cons.mp hq with rfl | hqm
                    · exact hlast
                    · exact hmore q hqm
                  · split at h
                    · rw [if_pos trivial] at h
                      injection h with h'
                      rw [List.nil_append] at h'
                      subst h'
                      exact hmore q hq
                    · rename_i w j hedge
                      rw [if_neg (by simp : ¬ (Tok.END = Tok.str w))] at h
                      injection h with h'
                      rw [List.nil_append] at h'
                      subst h'
                      exact hmore q hq
                    · injection h with h'
                      subst h'
                      exact hmore q hq
              · simp only [heps, Bool.not_false, if_true, Bool.not_eq_true'] at h
                exact ih _ ys h q hq

/-- Both branches of the stack update push the consumed token last. -/
lemma updateStack_last (stk : Stack) (emits : List Grammar) (tok : Tok) (s' : Stack)
    (h : updateStack stk emits tok = some s') :
    s'.getLast? = some (Entry.tok tok) := by
  match emits with
  | [] =>
      obtain rfl : stk ++ [Entry.tok tok] = s' := by
        rw [updateStack] at h
        injection h
      exact List.getLast?_concat _
  | [rule] =>
      rw [updateStack] at h
      obtain rfl : _ ++ [Entry.parsed rule _, Entry.tok tok] = s' := by injection h
      rw [show (stk.reverse.dropWhile isStrEntry).reverse ++
          [Entry.parsed rule ((stk.reverse.takeWhile isStrEntry).reverse.map entryStr),
           Entry.tok tok] =
        ((stk.reverse.dropWhile isStrEntry).reverse ++
          [Entry.parsed rule ((stk.reverse.takeWhile isStrEntry).reverse.map entryStr)]) ++
          [Entry.tok tok] by simp]
      exact List.getLast?_concat _
  | _ :: _ :: _ => exact Option.noConfusion h

/-- The function `attachStacks` pairs the yields one for one: the produced states are
exactly the yields' target states. -/
lemma attachStacks_fst (stk : Stack) (tok : Tok) :
    ∀ (ys : List (List Grammar × Nat)) (here : List (Nat × Stack)),
      attachStacks stk tok ys = some here → here.map Prod.fst = ys.map Prod.snd := by
  intro ys
  induction ys with
  | nil =>
      intro here h
      rw [attachStacks] at h
      obtain rfl : ([] : List (Nat × Stack)) = here := by injection h
      rfl
  | cons p rest ih =>
      intro here h
      obtain ⟨emits, ns⟩ := p
      rw [attachStacks] at h
      split at h
      · exact absurd h (by simp)
      · rename_i s' hupd
        split at h
        · exact absurd h (by simp)
        · rename_i more hmore
          obtain rfl : (ns, s') :: more = here := by injection h
          show ns :: more.map Prod.fst = ns :: rest.map Prod.snd
          rw [ih more hmore]

/-- Every stack produced by `attachStacks` ends with the consumed token. -/
lemma attachStacks_last (stk : Stack) (tok : Tok) :
    ∀ (ys : List (List Grammar × Nat)) (here : List (Nat × Stack)),
      attachStacks stk tok ys = some here →
      ∀ q ∈ here, q.2.getLast? = some (Entry.tok tok) := by
  intro ys
  induction ys with
  | nil =>
      intro here h q hq
      rw [attachStacks] at h
      obtain rfl : ([] : List (Nat × Stack)) = here := by injection h
      exact absurd hq (List.not_mem_nil q)
  | cons p rest ih =>
      intro here h q hq
      obtain ⟨emits, ns⟩ := p
      rw [attachStacks] at h
      split at h
      · exact absurd h (by simp)
      · rename_i s' hupd
        split at h
        · exact absurd h (by simp)
        · rename_i more hmore
          obtain rfl : (ns, s') :: more = here := by injection h
          rcases List.mem_cons.mp hq with rfl | hqm
          · exact updateStack_last stk emits tok s' hupd
          · exact ih more hmore q hqm

/-- One round of `annotate` advances the states exactly as one round of
`matches` does (duplicates and order included). -/
lemma annotateRound_fst (t : Table) (fuel : Nat) (tok : Tok) :
    ∀ (pairs nexts : List (Nat × Stack)),
      annotateRound t fuel tok pairs = some nexts →
      transitionAll t fuel tok (pairs.map Prod.fst) = some (nexts.map Prod.fst) := by
  intro pairs
  induction pairs with
  | nil =>
      intro nexts h
      rw [annotateRound] at h
      obtain rfl : ([] : List (Nat × Stack)) = nexts := by injection h
      rfl
  | cons p rest ih =>
      intro nexts h
      obtain ⟨s, stk⟩ := p
      rw [annotateRound] at h
      split at h
      · exact absurd h (by simp)
      · rename_i ys hys
        split at h
        · exact absurd h (by simp)
        · rename_i here hhere
          split at h
          · exact absurd h (by simp)
          · rename_i more hmore
            obtain rfl : here ++ more = nexts := by injection h
            show transitionAll t fuel tok (s :: rest.map Prod.fst) =
              some ((here ++ more).map Prod.fst)
            have htr : transition t fuel [s] tok = some (ys.map Prod.snd) := by
              have := transEmit_proj t tok fuel [([], s)]
              rw [hys] at this
              simpa using this.symm
            rw [transitionAll, htr, ih more hmore, List.map_append,
              attachStacks_fst stk tok ys here hhere]

/-- Every stack alive after a round of `annotate` ends with the round's
token. -/
lemma annotateRound_last (t : Table) (fuel : Nat) (tok : Tok) :
    ∀ (pairs nexts : List (Nat × Stack)),
      annotateRound t fuel tok pairs = some nexts →
      ∀ q ∈ nexts, q.2.getLast? = some (Entry.tok tok) := by
  intro pairs
  induction pairs with
  | nil =>
      intro nexts h q hq
      rw [annotateRound] at h
      obtain rfl : ([] : List (Nat × Stack)) = nexts := by injection h
      exact absurd hq (List.not_mem_nil q)
  | cons p rest ih =>
      intro nexts h q hq
      obtain ⟨s, stk⟩ := p
      rw [annotateRound] at h
      split at h
      · exact absurd h (by simp)
      · rename_i ys hys
        split at h
        · exact absurd h (by simp)
        · rename_i here hhere
          split at h
          · exact absurd h (by simp)
          · rename_i more hmore
            obtain rfl : here ++ more = nexts := by injection h
            rcases List.mem_append.mp hq with hqh | hqm
            · exact attachStacks_last stk tok ys here hhere q hqh
            · exact ih more hmore q hqm

/-- After the `END` round every live pair sits on the accepting state. -/
lemma annotateRound_end_states (t : Table) (fuel : Nat) :
    ∀ (pairs nexts : List (Nat × Stack)),
      annotateRound t fuel Tok.END pairs = some nexts →
      ∀ q ∈ nexts, q.1 = t.length - 1 := by
  intro pairs
  induction pairs with
  | nil =>
      intro nexts h q hq
      rw [annotateRound] at h
      obtain rfl : ([] : List (Nat × Stack)) = nexts := by injection h
      exact absurd hq (List.not_mem_nil q)
  | cons p rest ih =>
      intro nexts h q hq
      obtain ⟨s, stk⟩ := p
      rw [annotateRound] at h
      split at h
      · exact absurd h (by simp)
      · rename_i ys hys
        split at h
        · exact absurd h (by simp)
        · rename_i here hhere
          split at h
          · exact absurd h (by simp)
          · rename_i more hmore
            obtain rfl : here ++ more = nexts := by injection h
            rcases List.mem_append.mp hq with hqh | hqm
            · have hfst : q.1 ∈ ys.map Prod.snd := by
                rw [← attachStacks_fst stk Tok.END ys here hhere]
                exact List.mem_map_of_mem Prod.fst hqh
              obtain ⟨y, hy, hysnd⟩ := List.mem_map.mp hfst
              rw [← hysnd]
              exact transEmit_end_last t fuel [([], s)] ys hys y hy
            · exact ih more hmore q hqm

/-- If a round of `annotate` succeeded, `transition` is defined (same
fuel) on every live state. -/
lemma annotateRound_transition_defined (t : Table) (fuel : Nat) (tok : Tok) :
    ∀ (pairs nexts : List (Nat × Stack)),
      annotateRound t fuel tok pairs = some nexts →
      ∀ s ∈ pairs.map Prod.fst, ∃ ys, transition t fuel [s] tok = some ys := by
  intro pairs
  induction pairs with
  | nil =>
      intro nexts h s hs
      exact absurd hs (List.not_mem_nil s)
  | cons p rest ih =>
      intro nexts h s hs
      obtain ⟨s0, stk⟩ := p
      rw [annotateRound] at h
      split at h
      · exact absurd h (by simp)
      · rename_i ys hys
        split at h
        · exact absurd h (by simp)
        · rename_i here hhere
          split at h
          · exact absurd h (by simp)
          · rename_i more hmore
            rcases List.mem_cons.mp hs with rfl | hsm
            · refine ⟨ys.map Prod.snd, ?_⟩
              have := transEmit_proj t tok fuel [([], s)]
              rw [hys] at this
              simpa using this.symm
            · exact ih more hmore s hsm

/-- Membership in a `matches` round: exactly the successors of some live
state. -/
lemma transitionAll_mem (t : Table) (fuel : Nat) (tok : Tok) :
    ∀ (states L : List Nat), transitionAll t fuel tok states = some L →
      ∀ x, x ∈ L ↔ ∃ s ∈ states, ∃ ys, transition t fuel [s] tok = some ys ∧ x ∈ ys := by
  intro states
  induction states with
  | nil =>
      intro L h x
      rw [transitionAll] at h
      obtain rfl : ([] : List Nat) = L := by injection h
      simp
  | cons s rest ih =>
      intro L h x
      rw [transitionAll] at h
      split at h
      · exact absurd h (by simp)
      · rename_i ys hys
        split at h
        · exact absurd h (by simp)
        · rename_i more hmore
          obtain rfl : ys ++ more = L := by injection h
          constructor
          · intro hx
            rcases List.mem_append.mp hx with hx | hx
            · exact ⟨s, by simp, ys, hys, hx⟩
            · obtain ⟨s', hs', ys', hys', hx'⟩ := (ih more hmore x).mp hx
              exact ⟨s', by simp [hs'], ys', hys', hx'⟩
          · rintro ⟨s', hs', ys', hys', hx'⟩
            rcases List.mem_cons.mp hs' with rfl | hs'
            · rw [hys] at hys'
              obtain rfl : ys = ys' := by injection hys'
              exact List.mem_append.mpr (Or.inl hx')
            · exact List.mem_append.mpr
                (Or.inr ((ih more hmore x).mpr ⟨s', hs', ys', hys', hx'⟩))

/-- A `matches` round is defined as soon as `transition` is defined on
each live state. -/
lemma transitionAll_defined (t : Table) (fuel : Nat) (tok : Tok) :
    ∀ (states : List Nat),
      (∀ s ∈ states, ∃ ys, transition t fuel [s] tok = some ys) →
      ∃ L, transitionAll t fuel tok states = some L := by
  intro states
  induction states with
  | nil => intro _; exact ⟨[], rfl⟩
  | cons s rest ih =>
      intro hdef
      obtain ⟨ys, hys⟩ := hdef s (by simp)
      obtain ⟨more, hmore⟩ := ih (fun s' hs' => hdef s' (by simp [hs']))
      refine ⟨ys ++ more, ?_⟩
      rw [transitionAll, hys, hmore]

/-- The function `matches` keeps running (and stays empty) once the live set
empties. -/
lemma matchesAux_nil (t : Table) (fuel : Nat) :
    ∀ (toks : List Tok), matchesAux t fuel [] toks = some [] := by
  intro toks
  induction toks with
  | nil => rfl
  | cons tok rest ih =>
      rw [matchesAux]
      show matchesAux t fuel (List.dedup []) rest = some []
      simpa using ih

/-- The token loops of `annotate` and `matches` stay in lockstep: whenever
`annotate` terminates, `matches` (same fuel) terminates, and the accepting
state survives `matches` exactly when `annotate` returned
interpretations. -/
lemma annotateAux_matchesAux (t : Table) (fuel : Nat) :
    ∀ (mid : List String) (pairs : List (Nat × Stack)) (states : List Nat)
      (r : Except (List Fail) (List Stack)),
      (∀ x, x ∈ states ↔ x ∈ pairs.map Prod.fst) →
      annotateAux t fuel pairs (mid.map Tok.str ++ [Tok.END]) = some r →
      ∃ final, matchesAux t fuel states (mid.map Tok.str ++ [Tok.END]) = some final ∧
        ((t.length - 1) ∈ final ↔ ∃ stks, r = Except.ok stks) := by
  intro mid
  induction mid with
  | nil =>
      intro pairs states r hset h
      rw [show (([] : List String).map Tok.str ++ [Tok.END]) = [Tok.END] from rfl] at h ⊢
      rw [annotateAux] at h
      split at h
      · exact absurd h (by simp)
      · rename_i nexts hround
        have hdef : ∀ s ∈ states, ∃ ys, transition t fuel [s] Tok.END = some ys := by
          intro s hs
          exact annotateRound_transition_defined t fuel Tok.END pairs nexts hround s
            ((hset s).mp hs)
        obtain ⟨L, hL⟩ := transitionAll_defined t fuel Tok.END states hdef
        have hLmem := transitionAll_mem t fuel Tok.END states L hL
        have hNmem := transitionAll_mem t fuel Tok.END (pairs.map Prod.fst)
          (nexts.map Prod.fst) (annotateRound_fst t fuel Tok.END pairs nexts hround)
        have hsetLN : ∀ x, x ∈ L ↔ x ∈ nexts.map Prod.fst := by
          intro x
          rw [hLmem x, hNmem x]
          constructor
          · rintro ⟨s, hs, ys, hys, hx⟩
            exact ⟨s, (hset s).mp hs, ys, hys, hx⟩
          · rintro ⟨s, hs, ys, hys, hx⟩
            exact ⟨s, (hset s).mpr hs, ys, hys, hx⟩
        refine ⟨L.dedup, ?_, ?_⟩
        · rw [matchesAux, hL]
          rfl
        · rw [List.mem_dedup, hsetLN]
          by_cases hempty : nexts.isEmpty
          · rw [if_pos hempty] at h
            split at h
            · exact absurd h (by simp)
            · rename_i fs hfs
              obtain rfl : Except.error fs.dedup = r := by injection h
              rw [List.isEmpty_iff] at hempty
              subst hempty
              simp
          · rw [if_neg hempty] at h
            rw [annotateAux] at h
            obtain rfl : Except.ok (nexts.map Prod.snd) = r := by injection h
            constructor
            · intro _
              exact ⟨nexts.map Prod.snd, rfl⟩
            · intro _
              have hne : nexts ≠ [] := by
                intro hnil
                rw [hnil] at hempty
                exact hempty rfl
              obtain ⟨q, hq⟩ := List.exists_mem_of_ne_nil nexts hne
              have hq1 := annotateRound_end_states t fuel pairs nexts hround q hq
              rw [← hq1]
              exact List.mem_map_of_mem Prod.fst hq
  | cons m mid' ih =>
      intro pairs states r hset h
      rw [show ((m :: mid').map Tok.str ++ [Tok.END]) =
        Tok.str m :: (mid'.map Tok.str ++ [Tok.END]) from rfl] at h ⊢
      rw [annotateAux] at h
      split at h
      · exact absurd h (by simp)
      · rename_i nexts hround
        have hdef : ∀ s ∈ states, ∃ ys, transition t fuel [s] (Tok.str m) = some ys := by
          intro s hs
          exact annotateRound_transition_defined t fuel (Tok.str m) pairs nexts hround s
            ((hset s).mp hs)
        obtain ⟨L, hL⟩ := transitionAll_defined t fuel (Tok.str m) states hdef
        have hLmem := transitionAll_mem t fuel (Tok.str m) states L hL
        have hNmem := transitionAll_mem t fuel (Tok.str m) (pairs.map Prod.fst)
          (nexts.map Prod.fst) (annotateRound_fst t fuel (Tok.str m) pairs nexts hround)
        have hsetLN : ∀ x, x ∈ L ↔ x ∈ nexts.map Prod.fst := by
          intro x
          rw [hLmem x, hNmem x]
          constructor
          · rintro ⟨s, hs, ys, hys, hx⟩
            exact ⟨s, (hset s).mp hs, ys, hys, hx⟩
          · rintro ⟨s, hs, ys, hys, hx⟩
            exact ⟨s, (hset s).mpr hs, ys, hys, hx⟩
        by_cases hempty : nexts.isEmpty
        · rw [if_pos hempty] at h
          split at h
          · exact absurd h (by simp)
          · rename_i fs hfs
            obtain rfl : Except.error fs.dedup = r := by injection h
            have hLnil : L = [] := by
              rw [List.isEmpty_iff] at hempty
              apply List.eq_nil_iff_forall_not_mem.mpr
              intro x hx
              have hmem := (hsetLN x).mp hx
              rw [hempty] at hmem
              simp at hmem
            refine ⟨[], ?_, by simp⟩
            rw [matchesAux, hL]
            show matchesAux t fuel L.dedup (mid'.map Tok.str ++ [Tok.END]) = some []
            rw [hLnil]
            simpa using matchesAux_nil t fuel (mid'.map Tok.str ++ [Tok.END])
        · rw [if_neg hempty] at h
          obtain ⟨final, hfin, hiff⟩ := ih nexts L.dedup r
            (fun x => by rw [List.mem_dedup]; exact hsetLN x) h
          refine ⟨final, ?_, hiff⟩
          rw [matchesAux, hL]
          exact hfin

/-- C1: whenever `annotate` terminates — returning interpretations or
raising a `ParseError` — `matches` on the same automaton, fuel and tokens
terminates too, and returns `true` exactly when `annotate` returned at
least one interpretation. -/
theorem matches_iff_annotate (t : Table) (fuel : Nat) (tokens : List String)
    (r : Except (List Fail) (List Stack))
    (h : NFA.annotate t fuel tokens = some r) :
    NFA.matches t fuel tokens = some (isOkResult r) := by
  unfold NFA.annotate at h
  obtain ⟨final, hfin, hiff⟩ := annotateAux_matchesAux t fuel tokens [(0, [])] [0] r
    (fun x => by simp) h
  unfold NFA.matches
  rw [hfin]
  simp only [Option.map_some']
  congr 1
  cases r with
  | ok stks =>
      have hmem : (t.length - 1) ∈ final := hiff.mpr ⟨stks, rfl⟩
      show final.contains (t.length - 1) = isOkResult (Except.ok stks)
      rw [show isOkResult (Except.ok stks : Except (List Fail) (List Stack)) = true from rfl]
      exact List.elem_iff.mpr hmem
  | error fs =>
      have hmem : (t.length - 1) ∉ final := by
        intro hmem
        obtain ⟨stks, hstks⟩ := hiff.mp hmem
        exact Except.noConfusion hstks
      show final.contains (t.length - 1) = isOkResult (Except.error fs)
      rw [show isOkResult (Except.error fs : Except (List Fail) (List Stack)) = false from rfl]
      rw [← Bool.not_eq_true]
      intro hc
      exact hmem (List.elem_iff.mp hc)

/-- C1 witness: on the compiled `take (ITEM)` with input
`["take", "sword"]`, `annotate` succeeds and `matches` is accordingly
`some true`. -/
theorem matches_iff_annotate_witness :
    NFA.matches takeItemNfa 30 ["take", "sword"] =
      some (isOkResult (Except.ok [[Entry.parsed (.keyword "take") ["take"],
        Entry.parsed (.var ["ITEM"]) ["sword"], Entry.tok .END]])) :=
  matches_iff_annotate takeItemNfa 30 ["take", "sword"]
    (Except.ok [[Entry.parsed (.keyword "take") ["take"],
      Entry.parsed (.var ["ITEM"]) ["sword"], Entry.tok .END]]) rfl

/-! ## Parse stacks and failure records (C9, C4) -/

/-- Interpretations surviving the `END` round end with the `END` entry. -/
lemma annotateAux_ok_last (t : Table) (fuel : Nat) :
    ∀ (mid : List String) (pairs : List (Nat × Stack)) (stks : List Stack),
      annotateAux t fuel pairs (mid.map Tok.str ++ [Tok.END]) = some (Except.ok stks) →
      ∀ stk ∈ stks, stk.getLast? = some (Entry.tok Tok.END) := by
  intro mid
  induction mid with
  | nil =>
      intro pairs stks h stk hstk
      rw [show (([] : List String).map Tok.str ++ [Tok.END]) = [Tok.END] from rfl] at h
      rw [annotateAux] at h
      split at h
      · exact absurd h (by simp)
      · rename_i nexts hround
        by_cases hempty : nexts.isEmpty
        · rw [if_pos hempty] at h
          split at h
          · exact absurd h (by simp)
          · exact absurd h (by simp)
        · rw [if_neg hempty] at h
          rw [annotateAux] at h
          have h2 : nexts.map Prod.snd = stks := by
            have h' : Except.ok (ε := List Fail) (nexts.map Prod.snd) = Except.ok stks := by
              injection h
            injection h'
          rw [← h2] at hstk
          obtain ⟨q, hq, hqs⟩ := List.mem_map.mp hstk
          rw [← hqs]
          exact annotateRound_last t fuel Tok.END pairs nexts hround q hq
  | cons m mid' ih =>
      intro pairs stks h stk hstk
      rw [show ((m :: mid').map Tok.str ++ [Tok.END]) =
        Tok.str m :: (mid'.map Tok.str ++ [Tok.END]) from rfl] at h
      rw [annotateAux] at h
      split at h
      · exact absurd h (by simp)
      · rename_i nexts hround
        by_cases hempty : nexts.isEmpty
        · rw [if_pos hempty] at h
          split at h
          · exact absurd h (by simp)
          · exact absurd h (by simp)
        · rw [if_neg hempty] at h
          exact ih nexts stks h stk hstk

/-- C9: every interpretation returned by a successful `annotate` ends with
the virtual `Token.END` marker as its final stack entry, even though `END`
was never part of the caller's token sequence. -/
theorem annotate_ends_with_END (t : Table) (fuel : Nat) (tokens : List String)
    (stks : List Stack) (h : NFA.annotate t fuel tokens = some (.ok stks)) :
    ∀ stk ∈ stks, stk.getLast? = some (Entry.tok Tok.END) := by
  unfold NFA.annotate at h
  exact annotateAux_ok_last t fuel tokens [(0, [])] stks h

/-- C9 witness: the single interpretation of `take sword` ends in `END`. -/
theorem annotate_ends_with_END_witness :
    ([Entry.parsed (.keyword "take") ["take"], Entry.parsed (.var ["ITEM"]) ["sword"],
      Entry.tok .END] : Stack).getLast? = some (Entry.tok Tok.END) :=
  annotate_ends_with_END takeItemNfa 30 ["take", "sword"]
    [[Entry.parsed (.keyword "take") ["take"], Entry.parsed (.var ["ITEM"]) ["sword"],
      Entry.tok .END]] rfl _ (List.mem_singleton.mpr rfl)

/-- The function `failuresFor` produces one record per live pair. -/
lemma failuresFor_length (t : Table) (fuel : Nat) (tok : Tok) :
    ∀ (pairs : List (Nat × Stack)) (fs : List Fail),
      failuresFor t fuel tok pairs = some fs → fs.length = pairs.length := by
  intro pairs
  induction pairs with
  | nil =>
      intro fs h
      rw [failuresFor] at h
      obtain rfl : ([] : List Fail) = fs := by injection h
      rfl
  | cons p rest ih =>
      intro fs h
      obtain ⟨s, stk⟩ := p
      rw [failuresFor] at h
      split at h
      · exact absurd h (by simp)
      · rename_i exp hexp
        split at h
        · exact absurd h (by simp)
        · rename_i more hmore
          obtain rfl : ({ expected := exp.dedup, received := tok } : Fail) :: more = fs := by
            injection h
          show more.length + 1 = rest.length + 1
          rw [ih more hmore]

/-- A raised `ParseError` carries a nonempty, duplicate-free list of
failure records. -/
lemma annotateAux_error_nonempty_nodup (t : Table) (fuel : Nat) :
    ∀ (toks : List Tok) (pairs : List (Nat × Stack)) (e : List Fail),
      pairs ≠ [] →
      annotateAux t fuel pairs toks = some (.error e) →
      e ≠ [] ∧ e.Nodup := by
  intro toks
  induction toks with
  | nil =>
      intro pairs e _ h
      rw [annotateAux] at h
      exact absurd h (by simp)
  | cons tok rest ih =>
      intro pairs e hne h
      rw [annotateAux] at h
      split at h
      · exact absurd h (by simp)
      · rename_i nexts hround
        by_cases hempty : nexts.isEmpty
        · rw [if_pos hempty] at h
          split at h
          · exact absurd h (by simp)
          · rename_i fs hfs
            have hde : fs.dedup = e := by
              have h' : Except.error (ε := List Fail) (α := List Stack) fs.dedup =
                  Except.error e := by injection h
              injection h'
            subst hde
            constructor
            · intro hdnil
              rw [List.dedup_eq_nil] at hdnil
              have hlen := failuresFor_length t fuel tok pairs fs hfs
              rw [hdnil] at hlen
              exact hne (List.eq_nil_of_length_eq_zero hlen.symm)
            · exact List.nodup_dedup fs
        · rw [if_neg hempty] at h
          refine ih nexts e ?_ h
          intro hnil
          rw [hnil] at hempty
          exact hempty rfl

/-- C4: when `annotate` fails it raises a `ParseError` carrying the
deduplicated, nonempty set of `(expected, received)` records of the paths
alive before the failing token; for a grammar requiring a literal keyword,
a mismatched literal yields the record whose expected set holds that
literal and whose received value is the mismatched token. -/
theorem parse_error_records :
    (∀ (t : Table) (fuel : Nat) (tokens : List String) (e : List Fail),
      NFA.annotate t fuel tokens = some (.error e) → e ≠ [] ∧ e.Nodup) ∧
    NFA.annotate takeItemNfa 30 ["grab"] =
      some (.error [{ expected := [Expected.lit "take"], received := Tok.str "grab" }]) := by
  constructor
  · intro t fuel tokens e h
    unfold NFA.annotate at h
    exact annotateAux_error_nonempty_nodup t fuel _ [(0, [])] e (by simp) h
  · rfl

/-- C4 witness: the concrete `ParseError` for `grab` against
`take (ITEM)` is nonempty and duplicate-free. -/
theorem parse_error_records_witness :
    ([({ expected := [Expected.lit "take"], received := Tok.str "grab" } : Fail)] ≠ []) ∧
    ([({ expected := [Expected.lit "take"], received := Tok.str "grab" } : Fail)]).Nodup :=
  parse_error_records.1 takeItemNfa 30 ["grab"]
    [{ expected := [Expected.lit "take"], received := Tok.str "grab" }] rfl

end Swampymud
